import Mathlib

/-!
Shallow embedding of the membership engine of `main.go` from the
`user-log` repository: the persistent `members` table, the in-memory
`knownMemberState` cache, the `knownMemberStateEmpty` cold flag that
gates notifications, the live join/leave handlers, and the paginated
full-roster synchronisation `syncMembersFromServer`.
-/

namespace UserLog

/-- `discordUser` from `main.go`: the display fields kept per member. -/
structure DiscordUser where
  username : String
  discriminator : String
deriving DecidableEq, Repr

/-- The fields of `discordgo.User` read by the program. -/
structure MemberUser where
  id : String
  username : String
  discriminator : String
deriving DecidableEq, Repr

/-- `discordgo.Member`: the `User` pointer may be nil (`none`). -/
structure Member where
  user : Option MemberUser
deriving DecidableEq, Repr

/-- Association-list model of both the sqlite `members` table and the
`knownMemberState` map, keyed by discord ID. -/
abbrev MemberMap := List (String × DiscordUser)

/-- Go map read `knownMemberState[id]`: the first binding wins. -/
def mapLookup : MemberMap → String → Option DiscordUser
  | [], _ => none
  | (k, v) :: rest, id => if k = id then some v else mapLookup rest id

/-- Go map write `knownMemberState[id] = u`: replace the binding in place
when present, otherwise append a fresh binding. -/
def mapInsert : MemberMap → String → DiscordUser → MemberMap
  | [], id, u => [(id, u)]
  | (k, v) :: rest, id, u =>
    if k = id then (id, u) :: rest else (k, v) :: mapInsert rest id u

/-- `INSERT INTO members(...) VALUES (...)`: appends a row. -/
def storeInsertRow (m : MemberMap) (id : String) (u : DiscordUser) : MemberMap :=
  m ++ [(id, u)]

/-- `UPDATE members SET ... WHERE discord_id = ?`: rewrites every row
carrying the given key and touches nothing else. -/
def storeUpdateRows (m : MemberMap) (id : String) (u : DiscordUser) : MemberMap :=
  m.map (fun p => if p.1 = id then (id, u) else p)

/-- `DELETE FROM members WHERE discord_id = ?`, and `delete(map, id)`. -/
def mapRemove (m : MemberMap) (id : String) : MemberMap :=
  m.filter (fun p => decide (p.1 ≠ id))

/-- The identities bound in a map, in row order. -/
def mapKeys (m : MemberMap) : List String := m.map Prod.fst

/-- Number of rows stored under a key. -/
def recordCount (m : MemberMap) (id : String) : Nat :=
  (m.filter (fun p => decide (p.1 = id))).length

/-- Well-formed store or cache: at most one row per identity. -/
def wfMap (m : MemberMap) : Prop := (mapKeys m).Nodup

/-- The primitive externally visible steps of the engine, recorded in the
order the Go code performs them: a durable store write, a cache write, or
a channel-message send. -/
inductive Action where
  | storeInsert (id : String) (user : DiscordUser)
  | storeUpdate (id : String) (user : DiscordUser)
  | storeDelete (id : String)
  | cachePut (id : String) (user : DiscordUser)
  | cacheDelete (id : String)
  | sendJoined (id : String) (user : DiscordUser)
  | sendLeft (id : String) (user : DiscordUser)
deriving DecidableEq, Repr

/-- Process-wide state of `main.go`: the sqlite `members` table, the
`knownMemberState` map, the `knownMemberStateEmpty` cold flag, and the
log of primitive steps performed so far (newest last). -/
structure SysState where
  store : MemberMap
  cache : MemberMap
  cold : Bool
  trace : List Action
deriving DecidableEq, Repr

/-- `memberAddedLocked`: a no-op when the identity is already cached,
otherwise insert into the store, put into the cache, and — only when not
cold — send one "joined" message. -/
def memberAddedLocked (st : SysState) (discordID : String) (user : DiscordUser) : SysState :=
  match mapLookup st.cache discordID with
  | some _ => st
  | none =>
    { store := storeInsertRow st.store discordID user
      cache := mapInsert st.cache discordID user
      cold := st.cold
      trace := st.trace ++ [.storeInsert discordID user, .cachePut discordID user] ++
        (if st.cold then [] else [.sendJoined discordID user]) }

/-- `memberUpdatedLocked`: persist the update, refresh the cache entry,
send nothing. -/
def memberUpdatedLocked (st : SysState) (discordID : String) (user : DiscordUser) : SysState :=
  { store := storeUpdateRows st.store discordID user
    cache := mapInsert st.cache discordID user
    cold := st.cold
    trace := st.trace ++ [.storeUpdate discordID user, .cachePut discordID user] }

/-- `memberRemovedLocked`: a no-op when the identity is not cached,
otherwise delete from the store, delete from the cache, and — only when
not cold — send one "left" message formatted from the removed record. -/
def memberRemovedLocked (st : SysState) (discordID : String) : SysState :=
  match mapLookup st.cache discordID with
  | none => st
  | some user =>
    { store := mapRemove st.store discordID
      cache := mapRemove st.cache discordID
      cold := st.cold
      trace := st.trace ++ [.storeDelete discordID, .cacheDelete discordID] ++
        (if st.cold then [] else [.sendLeft discordID user]) }

/-- The startup block of `main`: the rows loaded from the store populate
the `knownMemberState` map one assignment at a time, and
`knownMemberStateEmpty` is set iff that map ended up empty. -/
def startupState (loaded : MemberMap) : SysState :=
  let cache := loaded.foldl (fun c p => mapInsert c p.1 p.2) []
  { store := loaded, cache := cache, cold := cache.length == 0, trace := [] }

/-- `const limit = 1000` in `syncMembersFromServer`. -/
def limit : Nat := 1000

/-- Abnormal ends of a full sync: `panic` is the Go nil-pointer
dereference that advancing the cursor performs when the last member of a full page
member carries no user; `outOfFuel` bounds the unbounded Go `for` loop. -/
inductive SyncErr where
  | panic
  | outOfFuel
deriving DecidableEq, Repr

/-- The per-member body of the sync loop: silently persist and cache a
changed display record for a cached identity, run the `memberAddedLocked`
add-handling for an uncached one, and in either case drop the identity
from the working clone of the pre-sync key set. -/
def reconcileMember (st : SysState) (clone : List String) (u : MemberUser) :
    SysState × List String :=
  let memberUser : DiscordUser := { username := u.username, discriminator := u.discriminator }
  let st' :=
    match mapLookup st.cache u.id with
    | some user =>
      if user.username ≠ memberUser.username ∨ user.discriminator ≠ memberUser.discriminator
      then memberUpdatedLocked st u.id memberUser
      else st
    | none => memberAddedLocked st u.id memberUser
  (st', clone.filter (fun x => decide (x ≠ u.id)))

/-- One page of the sync loop: members whose `User` is nil are skipped
entirely, every other member is reconciled in order. -/
def processPage : SysState → List String → List Member → SysState × List String
  | st, clone, [] => (st, clone)
  | st, clone, m :: rest =>
    match m.user with
    | none => processPage st clone rest
    | some u =>
      let p := reconcileMember st clone u
      processPage p.1 p.2 rest

/-- The pagination skeleton of `syncMembersFromServer`: the sequence of
`GuildMembers` calls the loop makes, each paired with the page it
returned. The cursor starts at the value given by the caller and advances to the
user ID of the last member after every full page, and the loop stops at the first
short page. Advancing past a full page whose last member has no user is
the Go nil dereference, `SyncErr.panic`. -/
def fetchCalls (fetch : String → Nat → List Member) :
    Nat → String → Except SyncErr (List (String × List Member))
  | 0, _ => .error .outOfFuel
  | fuel + 1, after =>
    let members := fetch after limit
    if members.length < limit then .ok [(after, members)]
    else
      match members.getLast? with
      | none => .error .panic
      | some lastM =>
        match lastM.user with
        | none => .error .panic
        | some u =>
          match fetchCalls fetch fuel u.id with
          | .error e => .error e
          | .ok calls => .ok ((after, members) :: calls)

/-- The full member stream a sync consumes: the concatenation of all the
pages its fetch calls return. -/
def collectRoster (fetch : String → Nat → List Member) (fuel : Nat) (after : String) :
    Except SyncErr (List Member) :=
  match fetchCalls fetch fuel after with
  | .error e => .error e
  | .ok calls => .ok (calls.map Prod.snd).flatten

/-- The fetch-and-reconcile loop of `syncMembersFromServer`, threading the
state and the working clone through each page. -/
def syncLoop (fetch : String → Nat → List Member) :
    Nat → String → SysState → List String → Except SyncErr (SysState × List String)
  | 0, _, _, _ => .error .outOfFuel
  | fuel + 1, after, st, clone =>
    let members := fetch after limit
    let p := processPage st clone members
    if members.length < limit then .ok p
    else
      match members.getLast? with
      | none => .error .panic
      | some lastM =>
        match lastM.user with
        | none => .error .panic
        | some u => syncLoop fetch fuel u.id p.1 p.2

/-- `syncMembersFromServer`: clone the key set of the cache, consume all roster
pages, remove every identity never seen in a page as a missed leave, and
unconditionally clear the cold flag. -/
def syncMembersFromServer (fetch : String → Nat → List Member) (fuel : Nat)
    (st : SysState) : Except SyncErr SysState :=
  let clone := mapKeys st.cache
  match syncLoop fetch fuel "" st clone with
  | .error e => .error e
  | .ok p =>
    let st' := p.2.foldl memberRemovedLocked p.1
    .ok { st' with cold := false }

/-- The identities a list of pages delivers, skipping nil users, in the
order the loop reconciles them. -/
def pageUserIds (ms : List Member) : List String :=
  ms.filterMap (fun m => m.user.map (fun u => u.id))

/-- One live event or one timer-driven full sync. -/
inductive Event where
  | joined (id : String) (user : DiscordUser)
  | left (id : String)
  | fullSync (fetch : String → Nat → List Member) (fuel : Nat)

/-- Dispatch of one trigger: `guildMemberAdd`, `guildMemberRemove`, or a
scheduled `syncMembersFromServer`. -/
def applyEvent (st : SysState) : Event → Except SyncErr SysState
  | .joined id user => .ok (memberAddedLocked st id user)
  | .left id => .ok (memberRemovedLocked st id)
  | .fullSync fetch fuel => syncMembersFromServer fetch fuel st

/-- A finite serialized history of triggers, as the single lock orders
them. -/
def runEvents : SysState → List Event → Except SyncErr SysState
  | st, [] => .ok st
  | st, e :: rest =>
    match applyEvent st e with
    | .error err => .error err
    | .ok st' => runEvents st' rest

/-- Whether an event is a full sync. -/
def Event.isFullSync : Event → Bool
  | .fullSync _ _ => true
  | _ => false

def Action.isSend : Action → Bool
  | .sendJoined _ _ => true
  | .sendLeft _ _ => true
  | _ => false

def Action.isStoreInsert : Action → Bool
  | .storeInsert _ _ => true
  | _ => false

def Action.isSendLeftFor (id : String) : Action → Bool
  | .sendLeft i _ => i == id
  | _ => false

/-- Number of channel messages sent so far. -/
def sendCount (tr : List Action) : Nat := (tr.filter Action.isSend).length

/-- Number of store inserts performed so far. -/
def insertCount (tr : List Action) : Nat := (tr.filter Action.isStoreInsert).length

/-- Number of "left" messages sent so far about one identity. -/
def sendLeftCountFor (id : String) (tr : List Action) : Nat :=
  (tr.filter (Action.isSendLeftFor id)).length

/-- The safety precondition of the cursor advance: whenever a fetched page
is full-length, it is non-empty and its last member carries user data. -/
def safeFetch (fetch : String → Nat → List Member) : Prop :=
  ∀ after, limit ≤ (fetch after limit).length →
    ∃ m, (fetch after limit).getLast? = some m ∧ m.user ≠ none

/-- The cache-equals-store invariant on identity sets. -/
def keysEq (st : SysState) : Prop :=
  ∀ id, id ∈ mapKeys st.store ↔ id ∈ mapKeys st.cache

/-! ### Concrete data for example runs -/

def wUser : DiscordUser := { username := "alice", discriminator := "0001" }
def wAlicia : DiscordUser := { username := "alicia", discriminator := "0001" }
def wBob : DiscordUser := { username := "bob", discriminator := "0002" }
def wCarol : DiscordUser := { username := "carol", discriminator := "0003" }

def wState : SysState :=
  { store := [("A", wUser)], cache := [("A", wUser)], cold := false, trace := [] }

/-- A roster member with user data present. -/
def mkMember (id : String) (u : DiscordUser) : Member :=
  { user := some { id := id, username := u.username, discriminator := u.discriminator } }

def wMemberU : MemberUser := { id := "A", username := "alicia", discriminator := "0001" }

def emptyFetch : String → Nat → List Member := fun _ _ => []

def wFetchAB : String → Nat → List Member :=
  fun _ _ => [mkMember "A" wUser, mkMember "B" wBob]

def wC2Final : SysState :=
  { store := [], cache := [], cold := false,
    trace := [.storeInsert "A" wUser, .cachePut "A" wUser,
      .storeDelete "A", .cacheDelete "A"] }

def wStABC : SysState :=
  { store := [("A", wUser), ("B", wBob), ("C", wCarol)]
    cache := [("A", wUser), ("B", wBob), ("C", wCarol)]
    cold := false, trace := [] }

def wFetchAC : String → Nat → List Member :=
  fun _ _ => [mkMember "A" wUser, mkMember "C" wCarol]

def wC4Final : SysState :=
  { store := [("A", wUser), ("C", wCarol)]
    cache := [("A", wUser), ("C", wCarol)]
    cold := false
    trace := [.storeDelete "B", .cacheDelete "B", .sendLeft "B" wBob] }

/-- A full-length page every member of which carries no user data. -/
def nilPage : List Member := List.replicate limit { user := none }

def nilFetch : String → Nat → List Member := fun _ _ => nilPage

/-- The i-th identity of the large example roster. -/
def witId (i : Nat) : String := String.mk (List.replicate (i + 1) 'a')

def witMember (i : Nat) : Member :=
  { user := some { id := witId i, username := "u", discriminator := "1" } }

def witPage1 : List Member := (List.range' 0 1000).map witMember
def witPage2 : List Member := (List.range' 1000 1000).map witMember
def witPage3 : List Member := (List.range' 2000 500).map witMember

def witFetch : String → Nat → List Member := fun after _ =>
  if after.length = 0 then witPage1
  else if after.length = 1000 then witPage2
  else if after.length = 2000 then witPage3
  else []

/-! ### Map lemmas -/

theorem mapLookup_eq_none_iff (m : MemberMap) (id : String) :
    mapLookup m id = none ↔ id ∉ mapKeys m := by
  induction m with
  | nil => simp [mapLookup, mapKeys]
  | cons p rest ih =>
    obtain ⟨k, v⟩ := p
    by_cases h : k = id
    · subst h; simp [mapLookup, mapKeys]
    · simp [mapLookup, mapKeys, h, ih, Ne.symm h]

theorem mem_mapKeys_of_lookup {m : MemberMap} {id : String} {u : DiscordUser}
    (h : mapLookup m id = some u) : id ∈ mapKeys m := by
  by_contra hmem
  rw [← mapLookup_eq_none_iff] at hmem
  simp [hmem] at h

theorem mem_mapKeys_mapInsert (m : MemberMap) (id x : String) (u : DiscordUser) :
    x ∈ mapKeys (mapInsert m id u) ↔ x ∈ mapKeys m ∨ x = id := by
  induction m with
  | nil => simp [mapInsert, mapKeys]
  | cons p rest ih =>
    obtain ⟨k, v⟩ := p
    by_cases h : k = id
    · subst h; simp [mapInsert, mapKeys]; tauto
    · simp [mapInsert, mapKeys, h] at ih ⊢
      rw [ih]; tauto

theorem mapKeys_storeInsertRow (m : MemberMap) (id : String) (u : DiscordUser) :
    mapKeys (storeInsertRow m id u) = mapKeys m ++ [id] := by
  simp [mapKeys, storeInsertRow]

theorem mapKeys_storeUpdateRows (m : MemberMap) (id : String) (u : DiscordUser) :
    mapKeys (storeUpdateRows m id u) = mapKeys m := by
  induction m with
  | nil => rfl
  | cons p rest ih =>
    obtain ⟨k, v⟩ := p
    by_cases h : k = id <;> simp [storeUpdateRows, mapKeys, h] at ih ⊢ <;> exact ih

theorem mem_mapKeys_mapRemove (m : MemberMap) (id x : String) :
    x ∈ mapKeys (mapRemove m id) ↔ x ∈ mapKeys m ∧ x ≠ id := by
  induction m with
  | nil => simp [mapRemove, mapKeys]
  | cons p rest ih =>
    obtain ⟨k, v⟩ := p
    by_cases h : k = id
    · subst h
      simp only [mapRemove, List.filter] at ih ⊢
      simp [mapKeys, ih]
      tauto
    · simp only [mapRemove, List.filter] at ih ⊢
      simp [mapKeys, h, ih]
      constructor
      · rintro (rfl | hx)
        · exact ⟨Or.inl rfl, h⟩
        · exact ⟨Or.inr hx.1, hx.2⟩
      · rintro ⟨rfl | hx, hne⟩
        · exact Or.inl rfl
        · exact Or.inr ⟨hx, hne⟩

theorem mapLookup_mapInsert_self (m : MemberMap) (id : String) (u : DiscordUser) :
    mapLookup (mapInsert m id u) id = some u := by
  induction m with
  | nil => simp [mapInsert, mapLookup]
  | cons p rest ih =>
    obtain ⟨k, v⟩ := p
    by_cases h : k = id <;> simp [mapInsert, mapLookup, h, ih]

theorem wfMap_mapInsert {m : MemberMap} (id : String) (u : DiscordUser)
    (h : wfMap m) : wfMap (mapInsert m id u) := by
  induction m with
  | nil => simp [wfMap, mapInsert, mapKeys]
  | cons p rest ih =>
    obtain ⟨k, v⟩ := p
    simp only [wfMap, mapKeys, List.map_cons, List.nodup_cons] at h
    by_cases hk : k = id
    · subst hk
      simpa [wfMap, mapInsert, mapKeys, List.nodup_cons] using h
    · have := ih h.2
      simp only [wfMap, mapInsert, hk, if_false, mapKeys, List.map_cons,
        List.nodup_cons] at this ⊢
      refine ⟨?_, this⟩
      intro hmem
      have hmem' : k ∈ mapKeys (mapInsert rest id u) := hmem
      rcases (mem_mapKeys_mapInsert rest id k u).1 hmem' with hk' | hk'
      · exact h.1 (by simpa [mapKeys] using hk')
      · exact hk hk'

theorem wfMap_mapRemove {m : MemberMap} (id : String) (h : wfMap m) :
    wfMap (mapRemove m id) := by
  have hs : List.Sublist (mapRemove m id) m := List.filter_sublist m
  exact ((hs.map Prod.fst).nodup h : wfMap (mapRemove m id))

theorem wfMap_storeInsertRow {m : MemberMap} {id : String} (u : DiscordUser)
    (h : wfMap m) (hid : id ∉ mapKeys m) : wfMap (storeInsertRow m id u) := by
  unfold wfMap at h ⊢
  rw [mapKeys_storeInsertRow]
  refine List.Nodup.append h (by simp) ?_
  intro x hx hx2
  simp only [List.mem_singleton] at hx2
  exact hid (hx2 ▸ hx)

theorem wfMap_storeUpdateRows {m : MemberMap} (id : String) (u : DiscordUser)
    (h : wfMap m) : wfMap (storeUpdateRows m id u) := by
  unfold wfMap
  rw [mapKeys_storeUpdateRows]
  exact h

theorem recordCount_eq_zero {m : MemberMap} {id : String} (h : id ∉ mapKeys m) :
    recordCount m id = 0 := by
  unfold recordCount
  rw [List.length_eq_zero, List.filter_eq_nil_iff]
  intro p hp
  simp only [decide_eq_true_eq]
  intro hpid
  exact h (hpid ▸ List.mem_map.2 ⟨p, hp, rfl⟩)

theorem recordCount_eq_one {m : MemberMap} {id : String} (hwf : wfMap m)
    (h : id ∈ mapKeys m) : recordCount m id = 1 := by
  induction m with
  | nil => simp [mapKeys] at h
  | cons p rest ih =>
    obtain ⟨k, v⟩ := p
    simp only [wfMap, mapKeys, List.map_cons, List.nodup_cons] at hwf
    by_cases hk : k = id
    · subst hk
      have : recordCount rest k = 0 := recordCount_eq_zero hwf.1
      simp [recordCount, List.filter] at this ⊢
      exact this
    · simp only [mapKeys, List.map_cons, List.mem_cons] at h
      rcases h with h | h
      · exact absurd h.symm hk
      · simpa [recordCount, List.filter, hk] using ih hwf.2 h

theorem recordCount_storeInsertRow_self (m : MemberMap) (id : String) (u : DiscordUser) :
    recordCount (storeInsertRow m id u) id = recordCount m id + 1 := by
  simp [recordCount, storeInsertRow, List.filter_append]

/-! ### Live-handler lemmas -/

theorem memberAddedLocked_of_mem {st : SysState} {discordID : String} {r : DiscordUser}
    (h : mapLookup st.cache discordID = some r) (user : DiscordUser) :
    memberAddedLocked st discordID user = st := by
  simp [memberAddedLocked, h]

theorem memberAddedLocked_of_not_mem {st : SysState} {discordID : String}
    (h : mapLookup st.cache discordID = none) (user : DiscordUser) :
    memberAddedLocked st discordID user =
      { store := storeInsertRow st.store discordID user
        cache := mapInsert st.cache discordID user
        cold := st.cold
        trace := st.trace ++ [.storeInsert discordID user, .cachePut discordID user] ++
          (if st.cold then [] else [.sendJoined discordID user]) } := by
  simp [memberAddedLocked, h]

theorem memberRemovedLocked_of_not_mem {st : SysState} {discordID : String}
    (h : mapLookup st.cache discordID = none) :
    memberRemovedLocked st discordID = st := by
  simp [memberRemovedLocked, h]

theorem memberRemovedLocked_of_mem {st : SysState} {discordID : String} {r : DiscordUser}
    (h : mapLookup st.cache discordID = some r) :
    memberRemovedLocked st discordID =
      { store := mapRemove st.store discordID
        cache := mapRemove st.cache discordID
        cold := st.cold
        trace := st.trace ++ [.storeDelete discordID, .cacheDelete discordID] ++
          (if st.cold then [] else [.sendLeft discordID r]) } := by
  simp [memberRemovedLocked, h]

theorem memberAddedLocked_cold (st : SysState) (discordID : String) (user : DiscordUser) :
    (memberAddedLocked st discordID user).cold = st.cold := by
  cases h : mapLookup st.cache discordID <;> simp [memberAddedLocked, h]

theorem memberUpdatedLocked_cold (st : SysState) (discordID : String) (user : DiscordUser) :
    (memberUpdatedLocked st discordID user).cold = st.cold := rfl

theorem memberRemovedLocked_cold (st : SysState) (discordID : String) :
    (memberRemovedLocked st discordID).cold = st.cold := by
  cases h : mapLookup st.cache discordID <;> simp [memberRemovedLocked, h]

theorem memberAddedLocked_cacheKeys (st : SysState) (discordID : String)
    (user : DiscordUser) (x : String) :
    x ∈ mapKeys (memberAddedLocked st discordID user).cache ↔
      x ∈ mapKeys st.cache ∨ x = discordID := by
  cases h : mapLookup st.cache discordID with
  | none => simp [memberAddedLocked, h, mem_mapKeys_mapInsert]
  | some r =>
    have hmem := mem_mapKeys_of_lookup h
    simp only [memberAddedLocked, h]
    constructor
    · exact Or.inl
    · rintro (hx | rfl)
      · exact hx
      · exact hmem

theorem memberRemovedLocked_cacheKeys (st : SysState) (discordID : String) (x : String) :
    x ∈ mapKeys (memberRemovedLocked st discordID).cache ↔
      x ∈ mapKeys st.cache ∧ x ≠ discordID := by
  cases h : mapLookup st.cache discordID with
  | none =>
    simp only [memberRemovedLocked, h]
    constructor
    · intro hx
      refine ⟨hx, ?_⟩
      rintro rfl
      exact (mapLookup_eq_none_iff st.cache x).1 h hx
    · exact And.left
  | some r => simp [memberRemovedLocked, h, mem_mapKeys_mapRemove]

theorem memberAddedLocked_keysEq {st : SysState} (discordID : String) (user : DiscordUser)
    (h : keysEq st) : keysEq (memberAddedLocked st discordID user) := by
  intro x
  cases hl : mapLookup st.cache discordID with
  | some r => rw [memberAddedLocked_of_mem hl]; exact h x
  | none =>
    rw [memberAddedLocked_of_not_mem hl]
    simp only [mapKeys_storeInsertRow, List.mem_append, List.mem_singleton,
      mem_mapKeys_mapInsert]
    rw [h x]

theorem memberUpdatedLocked_keysEq {st : SysState} {discordID : String} (user : DiscordUser)
    (h : keysEq st) (hmem : discordID ∈ mapKeys st.cache) :
    keysEq (memberUpdatedLocked st discordID user) := by
  intro x
  unfold memberUpdatedLocked
  simp only [mapKeys_storeUpdateRows, mem_mapKeys_mapInsert]
  rw [h x]
  constructor
  · exact Or.inl
  · rintro (hx | rfl)
    · exact hx
    · exact hmem

theorem memberRemovedLocked_keysEq {st : SysState} (discordID : String)
    (h : keysEq st) : keysEq (memberRemovedLocked st discordID) := by
  intro x
  cases hl : mapLookup st.cache discordID with
  | none => rw [memberRemovedLocked_of_not_mem hl]; exact h x
  | some r =>
    rw [memberRemovedLocked_of_mem hl]
    simp only [mem_mapKeys_mapRemove]
    rw [h x]

theorem memberAddedLocked_lookup_self (st : SysState) (discordID : String)
    (user : DiscordUser) :
    (mapLookup (memberAddedLocked st discordID user).cache discordID).isSome := by
  cases h : mapLookup st.cache discordID with
  | some r => rw [memberAddedLocked_of_mem h]; simp [h]
  | none =>
    rw [memberAddedLocked_of_not_mem h]
    simp [mapLookup_mapInsert_self]

theorem memberAddedLocked_idem (st : SysState) (discordID : String) (user : DiscordUser) :
    memberAddedLocked (memberAddedLocked st discordID user) discordID user =
      memberAddedLocked st discordID user := by
  have h := memberAddedLocked_lookup_self st discordID user
  obtain ⟨r, hr⟩ := Option.isSome_iff_exists.1 h
  exact memberAddedLocked_of_mem hr user

/-! ### Trace and counting lemmas for the handlers -/

theorem memberAddedLocked_filter_send_cold {st : SysState} (h : st.cold = true)
    (discordID : String) (user : DiscordUser) :
    (memberAddedLocked st discordID user).trace.filter Action.isSend =
      st.trace.filter Action.isSend := by
  cases hl : mapLookup st.cache discordID with
  | none =>
    rw [memberAddedLocked_of_not_mem hl]
    simp [h, List.filter_append, Action.isSend]
  | some r => rw [memberAddedLocked_of_mem hl]

theorem memberRemovedLocked_filter_send_cold {st : SysState} (h : st.cold = true)
    (discordID : String) :
    (memberRemovedLocked st discordID).trace.filter Action.isSend =
      st.trace.filter Action.isSend := by
  cases hl : mapLookup st.cache discordID with
  | none => rw [memberRemovedLocked_of_not_mem hl]
  | some r =>
    rw [memberRemovedLocked_of_mem hl]
    simp [h, List.filter_append, Action.isSend]

theorem memberAddedLocked_filter_sendLeft (st : SysState) (discordID : String)
    (user : DiscordUser) (x : String) :
    (memberAddedLocked st discordID user).trace.filter (Action.isSendLeftFor x) =
      st.trace.filter (Action.isSendLeftFor x) := by
  cases hl : mapLookup st.cache discordID with
  | none =>
    rw [memberAddedLocked_of_not_mem hl]
    cases hc : st.cold <;> simp [List.filter_append, Action.isSendLeftFor]
  | some r => rw [memberAddedLocked_of_mem hl]

theorem memberUpdatedLocked_filter_sendLeft (st : SysState) (discordID : String)
    (user : DiscordUser) (x : String) :
    (memberUpdatedLocked st discordID user).trace.filter (Action.isSendLeftFor x) =
      st.trace.filter (Action.isSendLeftFor x) := by
  simp [memberUpdatedLocked, List.filter_append, Action.isSendLeftFor]

theorem memberUpdatedLocked_filter_send (st : SysState) (discordID : String)
    (user : DiscordUser) :
    (memberUpdatedLocked st discordID user).trace.filter Action.isSend =
      st.trace.filter Action.isSend := by
  simp [memberUpdatedLocked, List.filter_append, Action.isSend]

theorem memberRemovedLocked_filter_sendLeft_ne {st : SysState} {discordID x : String}
    (hne : x ≠ discordID) :
    (memberRemovedLocked st discordID).trace.filter (Action.isSendLeftFor x) =
      st.trace.filter (Action.isSendLeftFor x) := by
  cases hl : mapLookup st.cache discordID with
  | none => rw [memberRemovedLocked_of_not_mem hl]
  | some r =>
    rw [memberRemovedLocked_of_mem hl]
    cases hc : st.cold <;>
      simp [List.filter_append, Action.isSendLeftFor, Ne.symm hne]

theorem memberRemovedLocked_sendLeft_self {st : SysState} {discordID : String}
    {r : DiscordUser} (hl : mapLookup st.cache discordID = some r)
    (hc : st.cold = false) :
    (memberRemovedLocked st discordID).trace.filter (Action.isSendLeftFor discordID) =
      st.trace.filter (Action.isSendLeftFor discordID) ++
        [Action.sendLeft discordID r] := by
  rw [memberRemovedLocked_of_mem hl]
  simp [hc, List.filter_append, Action.isSendLeftFor]

theorem memberAddedLocked_insertCount_of_not_mem {st : SysState} {discordID : String}
    (hl : mapLookup st.cache discordID = none) (user : DiscordUser) :
    insertCount (memberAddedLocked st discordID user).trace =
      insertCount st.trace + 1 := by
  rw [memberAddedLocked_of_not_mem hl]
  cases hc : st.cold <;>
    simp [insertCount, List.filter_append, Action.isStoreInsert]

theorem memberUpdatedLocked_insertCount (st : SysState) (discordID : String)
    (user : DiscordUser) :
    insertCount (memberUpdatedLocked st discordID user).trace = insertCount st.trace := by
  simp [memberUpdatedLocked, insertCount, List.filter_append, Action.isStoreInsert]

theorem memberRemovedLocked_insertCount (st : SysState) (discordID : String) :
    insertCount (memberRemovedLocked st discordID).trace = insertCount st.trace := by
  cases hl : mapLookup st.cache discordID with
  | none => rw [memberRemovedLocked_of_not_mem hl]
  | some r =>
    rw [memberRemovedLocked_of_mem hl]
    cases hc : st.cold <;>
      simp [insertCount, List.filter_append, Action.isStoreInsert]

theorem memberAddedLocked_sendCount_notify {st : SysState} {discordID : String}
    (hl : mapLookup st.cache discordID = none) (hc : st.cold = false)
    (user : DiscordUser) :
    sendCount (memberAddedLocked st discordID user).trace = sendCount st.trace + 1 := by
  rw [memberAddedLocked_of_not_mem hl]
  simp [hc, sendCount, List.filter_append, Action.isSend]

theorem memberRemovedLocked_sendCount_notify {st : SysState} {discordID : String}
    {r : DiscordUser} (hl : mapLookup st.cache discordID = some r)
    (hc : st.cold = false) :
    sendCount (memberRemovedLocked st discordID).trace = sendCount st.trace + 1 := by
  rw [memberRemovedLocked_of_mem hl]
  simp [hc, sendCount, List.filter_append, Action.isSend]

theorem memberAddedLocked_sendCount_le (st : SysState) (discordID : String)
    (user : DiscordUser) :
    sendCount (memberAddedLocked st discordID user).trace ≤ sendCount st.trace + 1 := by
  cases hl : mapLookup st.cache discordID with
  | none =>
    rw [memberAddedLocked_of_not_mem hl]
    cases hc : st.cold <;>
      simp [sendCount, List.filter_append, Action.isSend]
  | some r =>
    rw [memberAddedLocked_of_mem hl]
    exact Nat.le_succ_of_le (Nat.le_refl _)

theorem memberAddedLocked_trace_mem {st : SysState} {a : Action} (h : a ∈ st.trace)
    (discordID : String) (user : DiscordUser) :
    a ∈ (memberAddedLocked st discordID user).trace := by
  cases hl : mapLookup st.cache discordID with
  | none => rw [memberAddedLocked_of_not_mem hl]; simp [h]
  | some r => rw [memberAddedLocked_of_mem hl]; exact h

theorem memberUpdatedLocked_trace_mem {st : SysState} {a : Action} (h : a ∈ st.trace)
    (discordID : String) (user : DiscordUser) :
    a ∈ (memberUpdatedLocked st discordID user).trace := by
  simp [memberUpdatedLocked, h]

theorem memberRemovedLocked_trace_mem {st : SysState} {a : Action} (h : a ∈ st.trace)
    (discordID : String) :
    a ∈ (memberRemovedLocked st discordID).trace := by
  cases hl : mapLookup st.cache discordID with
  | none => rw [memberRemovedLocked_of_not_mem hl]; exact h
  | some r => rw [memberRemovedLocked_of_mem hl]; simp [h]

theorem memberRemovedLocked_deletes_mem {st : SysState} {discordID : String}
    {r : DiscordUser} (hl : mapLookup st.cache discordID = some r) :
    Action.storeDelete discordID ∈ (memberRemovedLocked st discordID).trace ∧
      Action.cacheDelete discordID ∈ (memberRemovedLocked st discordID).trace := by
  rw [memberRemovedLocked_of_mem hl]
  constructor <;> simp

/-! ### Per-member reconciliation lemmas -/

theorem reconcileMember_snd (st : SysState) (clone : List String) (u : MemberUser) :
    (reconcileMember st clone u).2 = clone.filter (fun x => decide (x ≠ u.id)) := rfl

theorem reconcileMember_of_not_mem {st : SysState} {u : MemberUser}
    (hl : mapLookup st.cache u.id = none) (clone : List String) :
    (reconcileMember st clone u).1 =
      memberAddedLocked st u.id { username := u.username, discriminator := u.discriminator } := by
  simp [reconcileMember, hl]

theorem reconcileMember_of_mem_ne {st : SysState} {u : MemberUser} {r : DiscordUser}
    (hl : mapLookup st.cache u.id = some r)
    (hne : r.username ≠ u.username ∨ r.discriminator ≠ u.discriminator)
    (clone : List String) :
    (reconcileMember st clone u).1 =
      memberUpdatedLocked st u.id { username := u.username, discriminator := u.discriminator } := by
  simp only [reconcileMember, hl]
  rw [if_pos hne]

theorem reconcileMember_of_mem_eq {st : SysState} {u : MemberUser} {r : DiscordUser}
    (hl : mapLookup st.cache u.id = some r)
    (huser : r.username = u.username) (hdisc : r.discriminator = u.discriminator)
    (clone : List String) :
    (reconcileMember st clone u).1 = st := by
  simp only [reconcileMember, hl]
  rw [if_neg]
  push_neg
  exact ⟨huser, hdisc⟩

theorem reconcileMember_cold (st : SysState) (clone : List String) (u : MemberUser) :
    (reconcileMember st clone u).1.cold = st.cold := by
  cases hl : mapLookup st.cache u.id with
  | none => rw [reconcileMember_of_not_mem hl]; exact memberAddedLocked_cold ..
  | some r =>
    by_cases hne : r.username ≠ u.username ∨ r.discriminator ≠ u.discriminator
    · rw [reconcileMember_of_mem_ne hl hne]; rfl
    · push_neg at hne
      rw [reconcileMember_of_mem_eq hl hne.1 hne.2]

theorem reconcileMember_cacheKeys (st : SysState) (clone : List String)
    (u : MemberUser) (x : String) :
    x ∈ mapKeys (reconcileMember st clone u).1.cache ↔
      x ∈ mapKeys st.cache ∨ x = u.id := by
  cases hl : mapLookup st.cache u.id with
  | none => rw [reconcileMember_of_not_mem hl]; exact memberAddedLocked_cacheKeys ..
  | some r =>
    by_cases hne : r.username ≠ u.username ∨ r.discriminator ≠ u.discriminator
    · rw [reconcileMember_of_mem_ne hl hne]
      exact mem_mapKeys_mapInsert ..
    · push_neg at hne
      rw [reconcileMember_of_mem_eq hl hne.1 hne.2]
      constructor
      · exact Or.inl
      · rintro (hx | rfl)
        · exact hx
        · exact mem_mapKeys_of_lookup hl

theorem reconcileMember_keysEq {st : SysState} (clone : List String) (u : MemberUser)
    (h : keysEq st) : keysEq (reconcileMember st clone u).1 := by
  cases hl : mapLookup st.cache u.id with
  | none => rw [reconcileMember_of_not_mem hl]; exact memberAddedLocked_keysEq _ _ h
  | some r =>
    by_cases hne : r.username ≠ u.username ∨ r.discriminator ≠ u.discriminator
    · rw [reconcileMember_of_mem_ne hl hne]
      exact memberUpdatedLocked_keysEq _ h (mem_mapKeys_of_lookup hl)
    · push_neg at hne
      rw [reconcileMember_of_mem_eq hl hne.1 hne.2]
      exact h

theorem reconcileMember_filter_send_cold {st : SysState} (h : st.cold = true)
    (clone : List String) (u : MemberUser) :
    (reconcileMember st clone u).1.trace.filter Action.isSend =
      st.trace.filter Action.isSend := by
  cases hl : mapLookup st.cache u.id with
  | none => rw [reconcileMember_of_not_mem hl]; exact memberAddedLocked_filter_send_cold h ..
  | some r =>
    by_cases hne : r.username ≠ u.username ∨ r.discriminator ≠ u.discriminator
    · rw [reconcileMember_of_mem_ne hl hne]; exact memberUpdatedLocked_filter_send ..
    · push_neg at hne
      rw [reconcileMember_of_mem_eq hl hne.1 hne.2]

theorem reconcileMember_filter_sendLeft (st : SysState) (clone : List String)
    (u : MemberUser) (x : String) :
    (reconcileMember st clone u).1.trace.filter (Action.isSendLeftFor x) =
      st.trace.filter (Action.isSendLeftFor x) := by
  cases hl : mapLookup st.cache u.id with
  | none => rw [reconcileMember_of_not_mem hl]; exact memberAddedLocked_filter_sendLeft ..
  | some r =>
    by_cases hne : r.username ≠ u.username ∨ r.discriminator ≠ u.discriminator
    · rw [reconcileMember_of_mem_ne hl hne]; exact memberUpdatedLocked_filter_sendLeft ..
    · push_neg at hne
      rw [reconcileMember_of_mem_eq hl hne.1 hne.2]

theorem reconcileMember_insertCount_fresh {st : SysState} {u : MemberUser}
    (hl : mapLookup st.cache u.id = none) (clone : List String) :
    insertCount (reconcileMember st clone u).1.trace = insertCount st.trace + 1 := by
  rw [reconcileMember_of_not_mem hl]
  exact memberAddedLocked_insertCount_of_not_mem hl _

/-! ### Page-processing lemmas -/

theorem pageUserIds_nil : pageUserIds [] = [] := rfl

theorem pageUserIds_cons_none {m : Member} (hm : m.user = none) (rest : List Member) :
    pageUserIds (m :: rest) = pageUserIds rest := by
  simp [pageUserIds, hm]

theorem pageUserIds_cons_some {m : Member} {u : MemberUser} (hm : m.user = some u)
    (rest : List Member) :
    pageUserIds (m :: rest) = u.id :: pageUserIds rest := by
  simp [pageUserIds, hm]

theorem pageUserIds_append (ms1 ms2 : List Member) :
    pageUserIds (ms1 ++ ms2) = pageUserIds ms1 ++ pageUserIds ms2 := by
  simp [pageUserIds]

theorem processPage_cold (ms : List Member) : ∀ (st : SysState) (clone : List String),
    (processPage st clone ms).1.cold = st.cold := by
  induction ms with
  | nil => intro st clone; rfl
  | cons m rest ih =>
    intro st clone
    cases hm : m.user with
    | none => simp only [processPage, hm]; exact ih ..
    | some u =>
      simp only [processPage, hm]
      rw [ih]
      exact reconcileMember_cold ..

theorem processPage_cacheKeys (ms : List Member) :
    ∀ (st : SysState) (clone : List String) (x : String),
      x ∈ mapKeys (processPage st clone ms).1.cache ↔
        x ∈ mapKeys st.cache ∨ x ∈ pageUserIds ms := by
  induction ms with
  | nil => intro st clone x; simp [processPage, pageUserIds]
  | cons m rest ih =>
    intro st clone x
    cases hm : m.user with
    | none =>
      simp only [processPage, hm]
      rw [ih, pageUserIds_cons_none hm]
    | some u =>
      simp only [processPage, hm]
      rw [ih, pageUserIds_cons_some hm, reconcileMember_cacheKeys]
      simp only [List.mem_cons]
      tauto

theorem processPage_snd_mem (ms : List Member) :
    ∀ (st : SysState) (clone : List String) (x : String),
      x ∈ (processPage st clone ms).2 ↔ x ∈ clone ∧ x ∉ pageUserIds ms := by
  induction ms with
  | nil => intro st clone x; simp [processPage, pageUserIds]
  | cons m rest ih =>
    intro st clone x
    cases hm : m.user with
    | none =>
      simp only [processPage, hm]
      rw [ih, pageUserIds_cons_none hm]
    | some u =>
      simp only [processPage, hm]
      rw [ih, reconcileMember_snd, pageUserIds_cons_some hm]
      simp only [List.mem_filter, decide_eq_true_eq, List.mem_cons]
      tauto

theorem processPage_snd_sublist (ms : List Member) :
    ∀ (st : SysState) (clone : List String),
      List.Sublist (processPage st clone ms).2 clone := by
  induction ms with
  | nil => intro st clone; exact List.Sublist.refl _
  | cons m rest ih =>
    intro st clone
    cases hm : m.user with
    | none => simp only [processPage, hm]; exact ih ..
    | some u =>
      simp only [processPage, hm]
      exact (ih ..).trans (by rw [reconcileMember_snd]; exact List.filter_sublist _)

theorem processPage_keysEq (ms : List Member) :
    ∀ {st : SysState} (clone : List String), keysEq st →
      keysEq (processPage st clone ms).1 := by
  induction ms with
  | nil => intro st clone h; exact h
  | cons m rest ih =>
    intro st clone h
    cases hm : m.user with
    | none => simp only [processPage, hm]; exact ih _ h
    | some u =>
      simp only [processPage, hm]
      exact ih _ (reconcileMember_keysEq _ _ h)

theorem processPage_filter_send_cold (ms : List Member) :
    ∀ {st : SysState} (clone : List String), st.cold = true →
      (processPage st clone ms).1.trace.filter Action.isSend =
        st.trace.filter Action.isSend := by
  induction ms with
  | nil => intro st clone _; rfl
  | cons m rest ih =>
    intro st clone h
    cases hm : m.user with
    | none => simp only [processPage, hm]; exact ih _ h
    | some u =>
      simp only [processPage, hm]
      rw [ih _ (by rw [reconcileMember_cold]; exact h)]
      exact reconcileMember_filter_send_cold h ..

theorem processPage_filter_sendLeft (ms : List Member) :
    ∀ (st : SysState) (clone : List String) (x : String),
      (processPage st clone ms).1.trace.filter (Action.isSendLeftFor x) =
        st.trace.filter (Action.isSendLeftFor x) := by
  induction ms with
  | nil => intro st clone x; rfl
  | cons m rest ih =>
    intro st clone x
    cases hm : m.user with
    | none => simp only [processPage, hm]; exact ih ..
    | some u =>
      simp only [processPage, hm]
      rw [ih]
      exact reconcileMember_filter_sendLeft ..

theorem processPage_insertCount_fresh (ms : List Member) :
    ∀ (st : SysState) (clone : List String), (pageUserIds ms).Nodup →
      (∀ x ∈ pageUserIds ms, x ∉ mapKeys st.cache) →
      insertCount (processPage st clone ms).1.trace =
        insertCount st.trace + (pageUserIds ms).length := by
  induction ms with
  | nil => intro st clone _ _; rfl
  | cons m rest ih =>
    intro st clone hnd hfresh
    cases hm : m.user with
    | none =>
      simp only [processPage, hm]
      rw [pageUserIds_cons_none hm] at hnd hfresh ⊢
      exact ih st clone hnd hfresh
    | some u =>
      simp only [processPage, hm]
      rw [pageUserIds_cons_some hm] at hnd hfresh ⊢
      have hfreshHead : u.id ∉ mapKeys st.cache := hfresh u.id (List.mem_cons_self ..)
      have hlook : mapLookup st.cache u.id = none :=
        (mapLookup_eq_none_iff ..).2 hfreshHead
      have htail : ∀ x ∈ pageUserIds rest, x ∉ mapKeys (reconcileMember st clone u).1.cache := by
        intro x hx
        rw [reconcileMember_cacheKeys]
        push_neg
        refine ⟨hfresh x (List.mem_cons_of_mem _ hx), ?_⟩
        rintro rfl
        exact (List.nodup_cons.1 hnd).1 hx
      rw [ih _ _ (List.nodup_cons.1 hnd).2 htail,
        reconcileMember_insertCount_fresh hlook]
      simp only [List.length_cons]
      omega

theorem processPage_append (ms1 ms2 : List Member) :
    ∀ (st : SysState) (clone : List String),
      processPage st clone (ms1 ++ ms2) =
        processPage (processPage st clone ms1).1 (processPage st clone ms1).2 ms2 := by
  induction ms1 with
  | nil => intro st clone; rfl
  | cons m rest ih =>
    intro st clone
    cases hm : m.user with
    | none => simp only [List.cons_append, processPage, hm]; exact ih ..
    | some u => simp only [List.cons_append, processPage, hm]; exact ih ..

/-! ### Missed-leave removal-fold lemmas -/

theorem lookup_isSome_of_mem_keys {m : MemberMap} {id : String} (h : id ∈ mapKeys m) :
    ∃ r, mapLookup m id = some r := by
  cases hl : mapLookup m id with
  | none => exact absurd h ((mapLookup_eq_none_iff ..).1 hl)
  | some r => exact ⟨r, rfl⟩

theorem memberRemovedLocked_storeKeys_subset {st : SysState} {discordID x : String}
    (h : x ∈ mapKeys (memberRemovedLocked st discordID).store) :
    x ∈ mapKeys st.store := by
  cases hl : mapLookup st.cache discordID with
  | none => rw [memberRemovedLocked_of_not_mem hl] at h; exact h
  | some r =>
    rw [memberRemovedLocked_of_mem hl] at h
    exact ((mem_mapKeys_mapRemove ..).1 h).1

theorem foldRemove_cold (l : List String) :
    ∀ st : SysState, (l.foldl memberRemovedLocked st).cold = st.cold := by
  induction l with
  | nil => intro st; rfl
  | cons a l ih =>
    intro st
    rw [List.foldl_cons, ih, memberRemovedLocked_cold]

theorem foldRemove_cacheKeys (l : List String) :
    ∀ (st : SysState) (x : String),
      x ∈ mapKeys (l.foldl memberRemovedLocked st).cache ↔
        x ∈ mapKeys st.cache ∧ x ∉ l := by
  induction l with
  | nil => intro st x; simp
  | cons a l ih =>
    intro st x
    rw [List.foldl_cons, ih, memberRemovedLocked_cacheKeys]
    simp only [List.mem_cons]
    tauto

theorem foldRemove_keysEq (l : List String) :
    ∀ {st : SysState}, keysEq st → keysEq (l.foldl memberRemovedLocked st) := by
  induction l with
  | nil => intro st h; exact h
  | cons a l ih =>
    intro st h
    rw [List.foldl_cons]
    exact ih (memberRemovedLocked_keysEq _ h)

theorem foldRemove_store_not_mem (l : List String) :
    ∀ {st : SysState} {x : String}, x ∉ mapKeys st.store →
      x ∉ mapKeys (l.foldl memberRemovedLocked st).store := by
  induction l with
  | nil => intro st x h; exact h
  | cons a l ih =>
    intro st x h
    rw [List.foldl_cons]
    exact ih (fun hmem => h (memberRemovedLocked_storeKeys_subset hmem))

theorem foldRemove_trace_mem (l : List String) :
    ∀ {st : SysState} {act : Action}, act ∈ st.trace →
      act ∈ (l.foldl memberRemovedLocked st).trace := by
  induction l with
  | nil => intro st act h; exact h
  | cons a l ih =>
    intro st act h
    rw [List.foldl_cons]
    exact ih (memberRemovedLocked_trace_mem h a)

theorem foldRemove_filter_send_cold (l : List String) :
    ∀ {st : SysState}, st.cold = true →
      (l.foldl memberRemovedLocked st).trace.filter Action.isSend =
        st.trace.filter Action.isSend := by
  induction l with
  | nil => intro st _; rfl
  | cons a l ih =>
    intro st h
    rw [List.foldl_cons, ih (by rw [memberRemovedLocked_cold]; exact h),
      memberRemovedLocked_filter_send_cold h]

theorem foldRemove_filter_sendLeft_not_mem (l : List String) :
    ∀ {st : SysState} {x : String}, x ∉ l →
      (l.foldl memberRemovedLocked st).trace.filter (Action.isSendLeftFor x) =
        st.trace.filter (Action.isSendLeftFor x) := by
  induction l with
  | nil => intro st x _; rfl
  | cons a l ih =>
    intro st x h
    rw [List.foldl_cons, ih (fun hx => h (List.mem_cons_of_mem _ hx)),
      memberRemovedLocked_filter_sendLeft_ne
        (fun hx : x = a => h (hx ▸ List.mem_cons_self a l))]

theorem foldRemove_removes (l : List String) :
    ∀ {st : SysState} {id : String}, l.Nodup → id ∈ l → id ∈ mapKeys st.cache →
      st.cold = false →
      id ∉ mapKeys (l.foldl memberRemovedLocked st).store ∧
      Action.storeDelete id ∈ (l.foldl memberRemovedLocked st).trace ∧
      Action.cacheDelete id ∈ (l.foldl memberRemovedLocked st).trace ∧
      sendLeftCountFor id (l.foldl memberRemovedLocked st).trace =
        sendLeftCountFor id st.trace + 1 := by
  induction l with
  | nil => intro st id _ h; exact absurd h (List.not_mem_nil id)
  | cons a l ih =>
    intro st id hnd hmem hcache hcold
    rw [List.foldl_cons]
    rcases List.mem_cons.1 hmem with rfl | hmem'
    · -- the head removal is the one that removes id
      obtain ⟨r, hr⟩ := lookup_isSome_of_mem_keys hcache
      have hstore : id ∉ mapKeys (memberRemovedLocked st id).store := by
        rw [memberRemovedLocked_of_mem hr]
        rw [mem_mapKeys_mapRemove]
        simp
      have hdel := memberRemovedLocked_deletes_mem hr
      have hnotin : id ∉ l := (List.nodup_cons.1 hnd).1
      refine ⟨foldRemove_store_not_mem l hstore,
        foldRemove_trace_mem l hdel.1, foldRemove_trace_mem l hdel.2, ?_⟩
      unfold sendLeftCountFor
      rw [foldRemove_filter_sendLeft_not_mem l hnotin,
        memberRemovedLocked_sendLeft_self hr hcold]
      simp
    · -- the head removal targets a different identity
      by_cases hae : a = id
      · subst hae
        exact absurd hmem' (List.nodup_cons.1 hnd).1
      · have hcache' : id ∈ mapKeys (memberRemovedLocked st a).cache := by
          rw [memberRemovedLocked_cacheKeys]
          exact ⟨hcache, fun h => hae h.symm⟩
        have hcold' : (memberRemovedLocked st a).cold = false := by
          rw [memberRemovedLocked_cold]; exact hcold
        obtain ⟨h1, h2, h3, h4⟩ := ih (List.nodup_cons.1 hnd).2 hmem' hcache' hcold'
        refine ⟨h1, h2, h3, ?_⟩
        rw [h4]
        unfold sendLeftCountFor
        rw [memberRemovedLocked_filter_sendLeft_ne (fun h => hae h.symm)]

/-! ### Loop correspondence lemmas -/

theorem syncLoop_ok_of_fetchCalls (fetch : String → Nat → List Member) :
    ∀ (fuel : Nat) (after : String) (calls : List (String × List Member)),
      fetchCalls fetch fuel after = .ok calls →
      ∀ (st : SysState) (clone : List String),
        syncLoop fetch fuel after st clone =
          .ok (processPage st clone (calls.map Prod.snd).flatten) := by
  intro fuel
  induction fuel with
  | zero => intro after calls h; simp [fetchCalls] at h
  | succ fuel ih =>
    intro after calls h st clone
    simp only [fetchCalls] at h
    simp only [syncLoop]
    by_cases hlen : (fetch after limit).length < limit
    · rw [if_pos hlen] at h ⊢
      obtain rfl : [(after, fetch after limit)] = calls := by simpa using h
      simp
    · rw [if_neg hlen] at h ⊢
      cases hlast : (fetch after limit).getLast? with
      | none => rw [hlast] at h; simp at h
      | some lastM =>
        rw [hlast] at h
        dsimp only at h ⊢
        cases hu : lastM.user with
        | none => rw [hu] at h; simp at h
        | some u =>
          rw [hu] at h
          dsimp only at h ⊢
          cases hrec : fetchCalls fetch fuel u.id with
          | error e => rw [hrec] at h; simp at h
          | ok calls' =>
            rw [hrec] at h
            dsimp only at h
            obtain rfl : (after, fetch after limit) :: calls' = calls := by simpa using h
            rw [ih u.id calls' hrec]
            simp only [List.map_cons, List.flatten_cons]
            rw [processPage_append]

theorem syncLoop_err_of_fetchCalls (fetch : String → Nat → List Member) :
    ∀ (fuel : Nat) (after : String) (e : SyncErr),
      fetchCalls fetch fuel after = .error e →
      ∀ (st : SysState) (clone : List String),
        syncLoop fetch fuel after st clone = .error e := by
  intro fuel
  induction fuel with
  | zero =>
    intro after e h st clone
    simp only [fetchCalls] at h
    obtain rfl : SyncErr.outOfFuel = e := by simpa using h
    rfl
  | succ fuel ih =>
    intro after e h st clone
    simp only [fetchCalls] at h
    simp only [syncLoop]
    by_cases hlen : (fetch after limit).length < limit
    · rw [if_pos hlen] at h; cases h
    · rw [if_neg hlen] at h ⊢
      cases hlast : (fetch after limit).getLast? with
      | none =>
        rw [hlast] at h
        dsimp only at h ⊢
        obtain rfl : SyncErr.panic = e := by simpa using h
        rfl
      | some lastM =>
        rw [hlast] at h
        dsimp only at h ⊢
        cases hu : lastM.user with
        | none =>
          rw [hu] at h
          dsimp only at h ⊢
          obtain rfl : SyncErr.panic = e := by simpa using h
          rfl
        | some u =>
          rw [hu] at h
          dsimp only at h ⊢
          cases hrec : fetchCalls fetch fuel u.id with
          | error e' =>
            rw [hrec] at h
            dsimp only at h
            obtain rfl : e' = e := by simpa using h
            exact ih u.id _ hrec ..
          | ok calls' => rw [hrec] at h; simp at h

theorem sync_ok_inv {fetch : String → Nat → List Member} {fuel : Nat}
    {st st' : SysState} (h : syncMembersFromServer fetch fuel st = .ok st') :
    ∃ ms, collectRoster fetch fuel "" = .ok ms ∧
      st' = { (processPage st (mapKeys st.cache) ms).2.foldl memberRemovedLocked
                (processPage st (mapKeys st.cache) ms).1 with cold := false } := by
  cases hfc : fetchCalls fetch fuel "" with
  | error e =>
    simp only [syncMembersFromServer] at h
    rw [syncLoop_err_of_fetchCalls fetch fuel "" e hfc] at h
    cases h
  | ok calls =>
    refine ⟨(calls.map Prod.snd).flatten, by simp [collectRoster, hfc], ?_⟩
    simp only [syncMembersFromServer] at h
    rw [syncLoop_ok_of_fetchCalls fetch fuel "" calls hfc] at h
    simpa using h.symm

theorem sync_ok_of_collect {fetch : String → Nat → List Member} {fuel : Nat}
    {ms : List Member} (h : collectRoster fetch fuel "" = .ok ms) (st : SysState) :
    syncMembersFromServer fetch fuel st =
      .ok { (processPage st (mapKeys st.cache) ms).2.foldl memberRemovedLocked
              (processPage st (mapKeys st.cache) ms).1 with cold := false } := by
  cases hfc : fetchCalls fetch fuel "" with
  | error e => simp [collectRoster, hfc] at h
  | ok calls =>
    obtain rfl : (calls.map Prod.snd).flatten = ms := by simpa [collectRoster, hfc] using h
    simp only [syncMembersFromServer]
    rw [syncLoop_ok_of_fetchCalls fetch fuel "" calls hfc]

theorem sync_cold_false {fetch : String → Nat → List Member} {fuel : Nat}
    {st st' : SysState} (h : syncMembersFromServer fetch fuel st = .ok st') :
    st'.cold = false := by
  obtain ⟨ms, _, rfl⟩ := sync_ok_inv h
  rfl

theorem sync_cacheKeys {fetch : String → Nat → List Member} {fuel : Nat}
    {ms : List Member} {st st' : SysState}
    (hms : collectRoster fetch fuel "" = .ok ms)
    (h : syncMembersFromServer fetch fuel st = .ok st') (x : String) :
    x ∈ mapKeys st'.cache ↔ x ∈ pageUserIds ms := by
  rw [sync_ok_of_collect hms st] at h
  have hst : st' = { (processPage st (mapKeys st.cache) ms).2.foldl memberRemovedLocked
      (processPage st (mapKeys st.cache) ms).1 with cold := false } := by
    simpa using h.symm
  subst hst
  rw [show ({ (processPage st (mapKeys st.cache) ms).2.foldl memberRemovedLocked
      (processPage st (mapKeys st.cache) ms).1 with cold := false } : SysState).cache =
      ((processPage st (mapKeys st.cache) ms).2.foldl memberRemovedLocked
        (processPage st (mapKeys st.cache) ms).1).cache from rfl]
  rw [foldRemove_cacheKeys, processPage_cacheKeys, processPage_snd_mem]
  constructor
  · rintro ⟨hor, hnot⟩
    rcases hor with hc | hid
    · by_contra hx
      exact hnot ⟨hc, hx⟩
    · exact hid
  · intro hid
    exact ⟨Or.inr hid, fun hx => hx.2 hid⟩

theorem sync_keysEq {fetch : String → Nat → List Member} {fuel : Nat}
    {st st' : SysState} (hk : keysEq st)
    (h : syncMembersFromServer fetch fuel st = .ok st') : keysEq st' := by
  obtain ⟨ms, _, rfl⟩ := sync_ok_inv h
  intro x
  exact foldRemove_keysEq _ (processPage_keysEq _ _ hk) x

/-! ### Event-sequence lemmas -/

theorem runEvents_append (l1 l2 : List Event) :
    ∀ st : SysState, runEvents st (l1 ++ l2) =
      match runEvents st l1 with
      | .ok st' => runEvents st' l2
      | .error e => .error e := by
  induction l1 with
  | nil => intro st; simp [runEvents]
  | cons e l1 ih =>
    intro st
    simp only [List.cons_append, runEvents]
    cases applyEvent st e with
    | error err => rfl
    | ok st' => exact ih st'

theorem applyEvent_cold_false {st : SysState} {e : Event} {st' : SysState}
    (h : applyEvent st e = .ok st') (hc : st.cold = false) : st'.cold = false := by
  cases e with
  | joined id user =>
    obtain rfl : memberAddedLocked st id user = st' := by simpa [applyEvent] using h
    rw [memberAddedLocked_cold]; exact hc
  | left id =>
    obtain rfl : memberRemovedLocked st id = st' := by simpa [applyEvent] using h
    rw [memberRemovedLocked_cold]; exact hc
  | fullSync fetch fuel => exact sync_cold_false h

theorem runEvents_cold_false (l : List Event) :
    ∀ {st st' : SysState}, runEvents st l = .ok st' → st.cold = false →
      st'.cold = false := by
  induction l with
  | nil =>
    intro st st' h hc
    obtain rfl : st = st' := by simpa [runEvents] using h
    exact hc
  | cons e l ih =>
    intro st st' h hc
    simp only [runEvents] at h
    cases ha : applyEvent st e with
    | error err => rw [ha] at h; cases h
    | ok st1 =>
      rw [ha] at h
      exact ih h (applyEvent_cold_false ha hc)

/-! ### Startup and safety lemmas -/

theorem processPage_snd_nil (ms : List Member) (st : SysState) :
    (processPage st [] ms).2 = [] :=
  List.sublist_nil.1 (processPage_snd_sublist ms st [])

theorem mapInsert_ne_nil (m : MemberMap) (id : String) (u : DiscordUser) :
    mapInsert m id u ≠ [] := by
  cases m with
  | nil => simp [mapInsert]
  | cons p rest =>
    obtain ⟨k, v⟩ := p
    by_cases h : k = id <;> simp [mapInsert, h]

theorem foldInsert_ne_nil (l : MemberMap) :
    ∀ c : MemberMap, c ≠ [] →
      l.foldl (fun c p => mapInsert c p.1 p.2) c ≠ [] := by
  induction l with
  | nil => intro c h; exact h
  | cons p l ih =>
    intro c _
    rw [List.foldl_cons]
    exact ih _ (mapInsert_ne_nil c p.1 p.2)

theorem foldInsert_keys (l : MemberMap) :
    ∀ (c : MemberMap) (x : String),
      x ∈ mapKeys (l.foldl (fun c p => mapInsert c p.1 p.2) c) ↔
        x ∈ mapKeys c ∨ x ∈ mapKeys l := by
  induction l with
  | nil => intro c x; simp [mapKeys]
  | cons p l ih =>
    intro c x
    rw [List.foldl_cons, ih]
    rw [mem_mapKeys_mapInsert]
    simp only [mapKeys, List.map_cons, List.mem_cons]
    tauto

theorem startupState_keysEq (loaded : MemberMap) : keysEq (startupState loaded) := by
  intro x
  show x ∈ mapKeys loaded ↔ x ∈ mapKeys (loaded.foldl (fun c p => mapInsert c p.1 p.2) [])
  rw [foldInsert_keys]
  simp [mapKeys]

theorem startupState_cold_iff (loaded : MemberMap) :
    (startupState loaded).cold = true ↔ loaded = [] := by
  cases loaded with
  | nil => simp [startupState]
  | cons p l =>
    simp only [startupState, List.foldl_cons]
    have hne := foldInsert_ne_nil l (mapInsert [] p.1 p.2) (mapInsert_ne_nil [] p.1 p.2)
    constructor
    · intro h
      exfalso
      simp only [beq_iff_eq, List.length_eq_zero] at h
      exact hne h
    · intro h; cases h

theorem startupState_empty : startupState [] =
    { store := [], cache := [], cold := true, trace := [] } := rfl

theorem fetchCalls_no_panic_of_safe {fetch : String → Nat → List Member}
    (hs : safeFetch fetch) :
    ∀ (fuel : Nat) (after : String), fetchCalls fetch fuel after ≠ .error .panic := by
  intro fuel
  induction fuel with
  | zero => intro after h; simp [fetchCalls] at h
  | succ fuel ih =>
    intro after h
    simp only [fetchCalls] at h
    by_cases hlen : (fetch after limit).length < limit
    · rw [if_pos hlen] at h; cases h
    · rw [if_neg hlen] at h
      obtain ⟨lastM, hlast, hu⟩ := hs after (Nat.le_of_not_lt hlen)
      rw [hlast] at h
      dsimp only at h
      cases hux : lastM.user with
      | none => exact hu hux
      | some u =>
        rw [hux] at h
        dsimp only at h
        cases hrec : fetchCalls fetch fuel u.id with
        | error e =>
          rw [hrec] at h
          obtain rfl : e = SyncErr.panic := by simpa using h
          exact ih u.id hrec
        | ok calls => rw [hrec] at h; cases h

theorem sync_no_panic_of_safe {fetch : String → Nat → List Member}
    (hs : safeFetch fetch) (fuel : Nat) (st : SysState) :
    syncMembersFromServer fetch fuel st ≠ .error .panic := by
  intro h
  cases hfc : fetchCalls fetch fuel "" with
  | error e =>
    simp only [syncMembersFromServer] at h
    rw [syncLoop_err_of_fetchCalls fetch fuel "" e hfc] at h
    obtain rfl : e = SyncErr.panic := by simpa using h
    exact fetchCalls_no_panic_of_safe hs fuel "" hfc
  | ok calls =>
    simp only [syncMembersFromServer] at h
    rw [syncLoop_ok_of_fetchCalls fetch fuel "" calls hfc] at h
    cases h

theorem pageUserIds_length_of_all_some (ms : List Member)
    (h : ∀ m ∈ ms, (m.user).isSome = true) :
    (pageUserIds ms).length = ms.length := by
  induction ms with
  | nil => rfl
  | cons m rest ih =>
    have hm := h m (List.mem_cons_self ..)
    obtain ⟨u, hu⟩ := Option.isSome_iff_exists.1 hm
    rw [pageUserIds_cons_some hu]
    simp only [List.length_cons]
    rw [ih (fun m2 hm2 => h m2 (List.mem_cons_of_mem _ hm2))]

theorem getLast_replicate_succ (a : Member) (n : Nat) :
    (List.replicate (n + 1) a).getLast? = some a := by
  induction n with
  | zero => rfl
  | succ n ih =>
    rw [List.replicate_succ, List.replicate_succ, List.getLast?_cons_cons,
      ← List.replicate_succ]
    exact ih

theorem fetchCalls_succ_full {fetch : String → Nat → List Member} {after : String}
    {p : List Member} {mlast : Member} {u : MemberUser}
    (hp : fetch after limit = p) (hlen : p.length = limit)
    (hlast : p.getLast? = some mlast) (hu : mlast.user = some u) (fuel : Nat) :
    fetchCalls fetch (fuel + 1) after =
      match fetchCalls fetch fuel u.id with
      | .error e => .error e
      | .ok calls => .ok ((after, p) :: calls) := by
  simp only [fetchCalls, hp]
  rw [if_neg (by rw [hlen]; exact lt_irrefl _)]
  rw [hlast]
  dsimp only
  rw [hu]

theorem fetchCalls_succ_panic {fetch : String → Nat → List Member} {after : String}
    {p : List Member} {mlast : Member}
    (hp : fetch after limit = p) (hlen : ¬ p.length < limit)
    (hlast : p.getLast? = some mlast) (hu : mlast.user = none) (fuel : Nat) :
    fetchCalls fetch (fuel + 1) after = .error .panic := by
  simp only [fetchCalls, hp]
  rw [if_neg hlen, hlast]
  dsimp only
  rw [hu]

theorem fetchCalls_succ_short {fetch : String → Nat → List Member} {after : String}
    {p : List Member} (hp : fetch after limit = p) (hlen : p.length < limit)
    (fuel : Nat) :
    fetchCalls fetch (fuel + 1) after = .ok [(after, p)] := by
  simp only [fetchCalls, hp]
  rw [if_pos hlen]

theorem witId_inj : Function.Injective witId := by
  intro i j h
  have h2 : List.replicate (i + 1) 'a' = List.replicate (j + 1) 'a' :=
    congrArg String.data h
  have h3 := congrArg List.length h2
  simp only [List.length_replicate] at h3
  omega

/-! ### The claims -/

/-- Claim C5: Joined idempotence — a duplicate Joined signal for a cached
identity is a no-op returning the state unchanged; applying the Joined
handler twice equals applying it once; under a well-formed store whose
key set matches the cache it leaves exactly one persisted record for the
identity; and the double application sends at most one message. -/
theorem claim5_joined_idempotent (st : SysState) (id : String) (u : DiscordUser) :
    (∀ r, mapLookup st.cache id = some r → memberAddedLocked st id u = st) ∧
    memberAddedLocked (memberAddedLocked st id u) id u = memberAddedLocked st id u ∧
    (wfMap st.store → (id ∈ mapKeys st.store ↔ id ∈ mapKeys st.cache) →
      recordCount (memberAddedLocked (memberAddedLocked st id u) id u).store id = 1) ∧
    sendCount (memberAddedLocked (memberAddedLocked st id u) id u).trace ≤
      sendCount st.trace + 1 := by
  refine ⟨fun r hr => memberAddedLocked_of_mem hr u, memberAddedLocked_idem .., ?_, ?_⟩
  · intro hwf hiff
    rw [memberAddedLocked_idem]
    cases hl : mapLookup st.cache id with
    | some r =>
      rw [memberAddedLocked_of_mem hl]
      exact recordCount_eq_one hwf (hiff.2 (mem_mapKeys_of_lookup hl))
    | none =>
      rw [memberAddedLocked_of_not_mem hl]
      show recordCount (storeInsertRow st.store id u) id = 1
      rw [recordCount_storeInsertRow_self,
        recordCount_eq_zero (fun hm => (mapLookup_eq_none_iff ..).1 hl (hiff.1 hm))]
  · rw [memberAddedLocked_idem]
    exact memberAddedLocked_sendCount_le ..

/-- Witness for C5 at a concrete state: the duplicate Joined for the
cached identity is a no-op, and double-adding a fresh identity leaves one
persisted record. -/
theorem claim5_witness :
    memberAddedLocked wState "A" wUser = wState ∧
    recordCount (memberAddedLocked (memberAddedLocked wState "B" wBob) "B" wBob).store
      "B" = 1 :=
  ⟨(claim5_joined_idempotent wState "A" wUser).1 wUser (by decide),
    (claim5_joined_idempotent wState "B" wBob).2.2.1
      (by unfold wfMap; decide) (by decide)⟩

/-- Claim C6: a Left signal for an identity absent from the cache is a
benign no-op: the whole state — persisted store, cache, cold flag and
send log — is returned unchanged. -/
theorem claim6_left_unknown_noop (st : SysState) (id : String)
    (h : mapLookup st.cache id = none) : memberRemovedLocked st id = st :=
  memberRemovedLocked_of_not_mem h

/-- Witness for C6: removing an identity that was never added changes
nothing. -/
theorem claim6_witness :
    mapLookup wState.cache "B" = none ∧ memberRemovedLocked wState "B" = wState :=
  ⟨by decide, claim6_left_unknown_noop wState "B" (by decide)⟩

/-- Claim C7: silent field update during a full sync — when the identity of a roster
member is cached and a display field differs, the per-member
reconciliation persists an update and refreshes the cache entry with no
message sent; when nothing differs, the state is untouched. -/
theorem claim7_silent_field_update (st : SysState) (clone : List String)
    (u : MemberUser) (r : DiscordUser) (hc : mapLookup st.cache u.id = some r) :
    ((r.username ≠ u.username ∨ r.discriminator ≠ u.discriminator) →
      (reconcileMember st clone u).1 =
        { store := storeUpdateRows st.store u.id
            { username := u.username, discriminator := u.discriminator }
          cache := mapInsert st.cache u.id
            { username := u.username, discriminator := u.discriminator }
          cold := st.cold
          trace := st.trace ++
            [.storeUpdate u.id { username := u.username, discriminator := u.discriminator },
             .cachePut u.id { username := u.username, discriminator := u.discriminator }] } ∧
      mapLookup (reconcileMember st clone u).1.cache u.id =
        some { username := u.username, discriminator := u.discriminator } ∧
      sendCount (reconcileMember st clone u).1.trace = sendCount st.trace) ∧
    ((r.username = u.username ∧ r.discriminator = u.discriminator) →
      (reconcileMember st clone u).1 = st) := by
  constructor
  · intro hne
    rw [reconcileMember_of_mem_ne hc hne]
    refine ⟨rfl, mapLookup_mapInsert_self .., ?_⟩
    unfold sendCount
    rw [memberUpdatedLocked_filter_send]
  · intro heq
    exact reconcileMember_of_mem_eq hc heq.1 heq.2 clone

/-- Witness for C7: reconciling the cached record ("alice", "0001")
against the roster entry ("alicia", "0001") updates the cache silently. -/
theorem claim7_witness :
    mapLookup wState.cache wMemberU.id = some wUser ∧
    mapLookup (reconcileMember wState [] wMemberU).1.cache wMemberU.id =
      some { username := wMemberU.username, discriminator := wMemberU.discriminator } ∧
    sendCount (reconcileMember wState [] wMemberU).1.trace = sendCount wState.trace := by
  have h := (claim7_silent_field_update wState [] wMemberU wUser (by decide)).1
    (by exact Or.inl (by decide))
  exact ⟨by decide, h.2.1, h.2.2⟩

/-- Claim C8: cold-flag lifecycle — the flag starts true iff zero records
were loaded; a successful full sync always ends with the flag false; and
the flag after any event is true exactly when it was true before and the
event was not a full sync, so only a full sync clears it and nothing sets
it back. -/
theorem claim8_cold_lifecycle :
    (∀ loaded : MemberMap, ((startupState loaded).cold = true ↔ loaded = [])) ∧
    (∀ (st : SysState) (e : Event) (st' : SysState), applyEvent st e = .ok st' →
      (st'.cold = true ↔ (st.cold = true ∧ e.isFullSync = false))) := by
  refine ⟨startupState_cold_iff, ?_⟩
  intro st e st' h
  cases e with
  | joined id user =>
    obtain rfl : memberAddedLocked st id user = st' := by simpa [applyEvent] using h
    rw [memberAddedLocked_cold]
    simp [Event.isFullSync]
  | left id =>
    obtain rfl : memberRemovedLocked st id = st' := by simpa [applyEvent] using h
    rw [memberRemovedLocked_cold]
    simp [Event.isFullSync]
  | fullSync fetch fuel =>
    rw [sync_cold_false h]
    simp [Event.isFullSync]

/-- Witness for C8: startup from an empty load is cold, and a live join
event leaves the (warm) flag warm. -/
theorem claim8_witness :
    ((startupState []).cold = true ↔ ([] : MemberMap) = []) ∧
    ((memberAddedLocked wState "B" wBob).cold = true ↔
      (wState.cold = true ∧ (Event.joined "B" wBob).isFullSync = false)) :=
  ⟨claim8_cold_lifecycle.1 [],
    claim8_cold_lifecycle.2 wState (Event.joined "B" wBob) _ rfl⟩

/-- Claim C9: the cache-equals-store key-set invariant holds at startup
and is preserved by every mutating operation — live add, live remove,
field update on a cached identity, and a completed full sync — and every
such operation performs its primitive steps in the order store write,
then cache write, then (only when not cold) message send, as its recorded
trace shows. -/
theorem claim9_cache_store_invariant :
    (∀ loaded : MemberMap, keysEq (startupState loaded)) ∧
    (∀ (st : SysState) (id : String) (u : DiscordUser), keysEq st →
      keysEq (memberAddedLocked st id u)) ∧
    (∀ (st : SysState) (id : String) (u : DiscordUser), keysEq st →
      id ∈ mapKeys st.cache → keysEq (memberUpdatedLocked st id u)) ∧
    (∀ (st : SysState) (id : String), keysEq st → keysEq (memberRemovedLocked st id)) ∧
    (∀ (fetch : String → Nat → List Member) (fuel : Nat) (st st' : SysState),
      keysEq st → syncMembersFromServer fetch fuel st = .ok st' → keysEq st') ∧
    (∀ (st : SysState) (id : String) (u : DiscordUser), mapLookup st.cache id = none →
      (memberAddedLocked st id u).trace = st.trace ++
        [.storeInsert id u, .cachePut id u] ++
        (if st.cold then [] else [.sendJoined id u])) ∧
    (∀ (st : SysState) (id : String) (u : DiscordUser),
      (memberUpdatedLocked st id u).trace = st.trace ++
        [.storeUpdate id u, .cachePut id u]) ∧
    (∀ (st : SysState) (id : String) (r : DiscordUser), mapLookup st.cache id = some r →
      (memberRemovedLocked st id).trace = st.trace ++
        [.storeDelete id, .cacheDelete id] ++
        (if st.cold then [] else [.sendLeft id r])) := by
  refine ⟨startupState_keysEq,
    fun st id u h => memberAddedLocked_keysEq id u h,
    fun st id u h hm => memberUpdatedLocked_keysEq u h hm,
    fun st id h => memberRemovedLocked_keysEq id h,
    fun fetch fuel st st' h hs => sync_keysEq h hs,
    ?_, fun st id u => rfl, ?_⟩
  · intro st id u hl
    rw [memberAddedLocked_of_not_mem hl]
  · intro st id r hl
    rw [memberRemovedLocked_of_mem hl]

/-- Witness for C9: the invariant holds at a concrete startup state and is
preserved by a concrete live add, whose trace appends store write, cache
write, and send in that order. -/
theorem claim9_witness :
    keysEq wState ∧ keysEq (memberAddedLocked wState "B" wBob) ∧
    (memberAddedLocked wState "B" wBob).trace = wState.trace ++
      [.storeInsert "B" wBob, .cachePut "B" wBob] ++
      (if wState.cold then [] else [.sendJoined "B" wBob]) := by
  have hk : keysEq wState := fun id => Iff.rfl
  exact ⟨hk, claim9_cache_store_invariant.2.1 wState "B" wBob hk,
    claim9_cache_store_invariant.2.2.2.2.2.1 wState "B" wBob (by decide)⟩

/-- Claim C1: cold suppression — a startup load of zero records sets the
cold flag; the first full sync then persists exactly one insert per
discovered roster identity while sending zero messages; and after that
sync completes (and through any further event history) every effective
live add or remove sends exactly one message. -/
theorem claim1_cold_suppression (fetch : String → Nat → List Member) (fuel : Nat)
    (ms : List Member) (hms : collectRoster fetch fuel "" = .ok ms)
    (hnd : (pageUserIds ms).Nodup) :
    (startupState []).cold = true ∧
    ∃ st', syncMembersFromServer fetch fuel (startupState []) = .ok st' ∧
      insertCount st'.trace = (pageUserIds ms).length ∧
      sendCount st'.trace = 0 ∧
      ∀ evs st2, runEvents st' evs = .ok st2 →
        (∀ id u, mapLookup st2.cache id = none →
          sendCount (memberAddedLocked st2 id u).trace = sendCount st2.trace + 1) ∧
        (∀ id, (mapLookup st2.cache id).isSome = true →
          sendCount (memberRemovedLocked st2 id).trace = sendCount st2.trace + 1) := by
  refine ⟨rfl, ?_⟩
  have hsync := sync_ok_of_collect hms (startupState [])
  rw [show mapKeys (startupState []).cache = [] from rfl] at hsync
  rw [processPage_snd_nil ms (startupState [])] at hsync
  rw [List.foldl_nil] at hsync
  refine ⟨_, hsync, ?_, ?_, ?_⟩
  · show insertCount (processPage (startupState []) [] ms).1.trace = _
    rw [processPage_insertCount_fresh ms (startupState []) [] hnd
      (fun x _ hx => List.not_mem_nil x hx)]
    simp [insertCount, startupState]
  · show sendCount (processPage (startupState []) [] ms).1.trace = 0
    unfold sendCount
    rw [processPage_filter_send_cold ms [] rfl]
    rfl
  · intro evs st2 hrun
    have hcold2 : st2.cold = false := runEvents_cold_false evs hrun rfl
    constructor
    · intro id u hl
      exact memberAddedLocked_sendCount_notify hl hcold2 u
    · intro id hi
      obtain ⟨r, hr⟩ := Option.isSome_iff_exists.1 hi
      exact memberRemovedLocked_sendCount_notify hr hcold2

/-- Witness for C1: from an empty load, a sync discovering two members
inserts both and sends nothing. -/
theorem claim1_witness :
    collectRoster wFetchAB 1 "" = .ok [mkMember "A" wUser, mkMember "B" wBob] ∧
    ∃ st', syncMembersFromServer wFetchAB 1 (startupState []) = .ok st' ∧
      insertCount st'.trace =
        (pageUserIds [mkMember "A" wUser, mkMember "B" wBob]).length ∧
      sendCount st'.trace = 0 ∧
      ∀ evs st2, runEvents st' evs = .ok st2 →
        (∀ id u, mapLookup st2.cache id = none →
          sendCount (memberAddedLocked st2 id u).trace = sendCount st2.trace + 1) ∧
        (∀ id, (mapLookup st2.cache id).isSome = true →
          sendCount (memberRemovedLocked st2 id).trace = sendCount st2.trace + 1) :=
  ⟨rfl, (claim1_cold_suppression wFetchAB 1 [mkMember "A" wUser, mkMember "B" wBob]
    rfl (by decide)).2⟩

/-- Claim C2: convergence — for any finite event history whose last event
is a full sync, the key set of the cache immediately after that sync
equals exactly the set of identities delivered by the roster pages of
that sync. -/
theorem claim2_convergence (evs : List Event) (st0 : SysState)
    (fetch : String → Nat → List Member) (fuel : Nat) (ms : List Member)
    (st' : SysState) (hms : collectRoster fetch fuel "" = .ok ms)
    (hrun : runEvents st0 (evs ++ [Event.fullSync fetch fuel]) = .ok st') :
    ∀ id, id ∈ mapKeys st'.cache ↔ id ∈ pageUserIds ms := by
  rw [runEvents_append] at hrun
  cases hmid : runEvents st0 evs with
  | error e => rw [hmid] at hrun; cases hrun
  | ok st1 =>
    rw [hmid] at hrun
    simp only [runEvents] at hrun
    cases ha : syncMembersFromServer fetch fuel st1 with
    | error e =>
      rw [show applyEvent st1 (Event.fullSync fetch fuel) =
        syncMembersFromServer fetch fuel st1 from rfl, ha] at hrun
      cases hrun
    | ok st2 =>
      rw [show applyEvent st1 (Event.fullSync fetch fuel) =
        syncMembersFromServer fetch fuel st1 from rfl, ha] at hrun
      obtain rfl : st2 = st' := by simpa [runEvents] using hrun
      exact fun id => sync_cacheKeys hms ha id

/-- Witness for C2: a join of "A" followed by a full sync against an empty
roster leaves the cache holding exactly the empty identity set. -/
theorem claim2_witness :
    runEvents (startupState []) ([Event.joined "A" wUser] ++
      [Event.fullSync emptyFetch 1]) = .ok wC2Final ∧
    ∀ id, id ∈ mapKeys wC2Final.cache ↔ id ∈ pageUserIds [] :=
  ⟨rfl, claim2_convergence [Event.joined "A" wUser] (startupState [])
    emptyFetch 1 [] wC2Final rfl rfl⟩

/-- Claim C4: missed-leave detection — an identity cached before a full
sync that never appears in any roster page ends up removed from both the
cache and the store, with a store delete and a cache delete recorded and
exactly one "left" message sent about it when the state was not cold. -/
theorem claim4_missed_leave (fetch : String → Nat → List Member) (fuel : Nat)
    (ms : List Member) (st st' : SysState) (id : String)
    (hwf : wfMap st.cache) (hcold : st.cold = false)
    (hms : collectRoster fetch fuel "" = .ok ms)
    (hsync : syncMembersFromServer fetch fuel st = .ok st')
    (hin : id ∈ mapKeys st.cache) (hout : id ∉ pageUserIds ms) :
    id ∉ mapKeys st'.cache ∧ id ∉ mapKeys st'.store ∧
    Action.storeDelete id ∈ st'.trace ∧ Action.cacheDelete id ∈ st'.trace ∧
    sendLeftCountFor id st'.trace = sendLeftCountFor id st.trace + 1 := by
  have hck := sync_cacheKeys hms hsync id
  have h1 : id ∉ mapKeys st'.cache := fun h => hout (hck.1 h)
  rw [sync_ok_of_collect hms st] at hsync
  have hst : st' = { (processPage st (mapKeys st.cache) ms).2.foldl memberRemovedLocked
      (processPage st (mapKeys st.cache) ms).1 with cold := false } := by
    simpa using hsync.symm
  subst hst
  have hndclone : (processPage st (mapKeys st.cache) ms).2.Nodup :=
    (processPage_snd_sublist ms st (mapKeys st.cache)).nodup hwf
  have hmemclone : id ∈ (processPage st (mapKeys st.cache) ms).2 :=
    (processPage_snd_mem ms st (mapKeys st.cache) id).2 ⟨hin, hout⟩
  have hcache1 : id ∈ mapKeys (processPage st (mapKeys st.cache) ms).1.cache :=
    (processPage_cacheKeys ms st (mapKeys st.cache) id).2 (Or.inl hin)
  have hcold1 : (processPage st (mapKeys st.cache) ms).1.cold = false := by
    rw [processPage_cold]; exact hcold
  obtain ⟨ha, hb, hc, hd⟩ := foldRemove_removes (processPage st (mapKeys st.cache) ms).2
    hndclone hmemclone hcache1 hcold1
  refine ⟨h1, ha, hb, hc, hd.trans ?_⟩
  unfold sendLeftCountFor
  rw [processPage_filter_sendLeft]

/-- Witness for C4: cache holding A, B, C reconciled against the roster
containing only A and C removes exactly B with one "left" message. -/
theorem claim4_witness :
    syncMembersFromServer wFetchAC 1 wStABC = .ok wC4Final ∧
    ("B" ∉ mapKeys wC4Final.cache ∧ "B" ∉ mapKeys wC4Final.store ∧
      Action.storeDelete "B" ∈ wC4Final.trace ∧ Action.cacheDelete "B" ∈ wC4Final.trace ∧
      sendLeftCountFor "B" wC4Final.trace = sendLeftCountFor "B" wStABC.trace + 1) :=
  ⟨rfl, claim4_missed_leave wFetchAC 1 [mkMember "A" wUser, mkMember "C" wCarol]
    wStABC wC4Final "B" (by unfold wfMap; decide) rfl rfl rfl (by decide) (by decide)⟩

/-- Claim C10: cursor-advance safety — under the precondition that every
full-length page is non-empty with user data on its last member, the sync
never hits the cursor-advance panic; and the precondition is not vacuous:
a full page of user-less members (all of which per-member processing
skips) makes the very same sync panic at the cursor advance. -/
theorem claim10_cursor_safety :
    (∀ fetch : String → Nat → List Member, safeFetch fetch →
      ∀ (fuel : Nat) (st : SysState),
        syncMembersFromServer fetch fuel st ≠ .error .panic) ∧
    ¬ safeFetch nilFetch ∧
    syncMembersFromServer nilFetch 2 (startupState []) = .error .panic := by
  have hlast : nilPage.getLast? = some { user := none } := by
    rw [show nilPage = List.replicate (999 + 1) { user := none } from rfl]
    exact getLast_replicate_succ _ 999
  have hlen : nilPage.length = limit := by simp [nilPage]
  refine ⟨fun fetch hs fuel st => sync_no_panic_of_safe hs fuel st, ?_, ?_⟩
  · intro hs
    obtain ⟨m, hm, hu⟩ := hs ""
      (by rw [show nilFetch "" limit = nilPage from rfl, hlen])
    rw [show nilFetch "" limit = nilPage from rfl, hlast] at hm
    obtain rfl : ({ user := none } : Member) = m := by simpa using hm
    exact hu rfl
  · have hfc : fetchCalls nilFetch 2 "" = .error .panic := by
      rw [show (2 : Nat) = 1 + 1 from rfl,
        fetchCalls_succ_panic (show nilFetch "" limit = nilPage from rfl)
          (by rw [hlen]; exact lt_irrefl _) hlast rfl 1]
    simp only [syncMembersFromServer]
    rw [syncLoop_err_of_fetchCalls nilFetch 2 "" SyncErr.panic hfc]

/-- Witness for C10: the always-short empty fetch satisfies the safety
precondition, so its sync cannot hit the panic branch. -/
theorem claim10_witness :
    safeFetch emptyFetch ∧
    syncMembersFromServer emptyFetch 1 (startupState []) ≠ .error .panic := by
  have hs : safeFetch emptyFetch := by
    intro after h
    simp [emptyFetch, limit] at h
  exact ⟨hs, claim10_cursor_safety.1 emptyFetch hs 1 (startupState [])⟩

/-- Claim C3: pagination — with a fetch collaborator splitting a roster
of 2,500 distinct identities into pages of 1,000 / 1,000 / 500, the sync
loop makes exactly three fetch calls, the cursor of each call after the
first being the identity of the last member of the previous page, stopping
exactly at the short page; the stream carries 2,500 identities, each
appearing exactly once; and a sync against this fetch succeeds with the
cache converging to exactly those identities. -/
theorem claim3_pagination (fetch : String → Nat → List Member)
    (p1 p2 p3 : List Member) (m1 m2 : Member) (u1 u2 : MemberUser)
    (h1 : fetch "" limit = p1) (hlen1 : p1.length = limit)
    (hlast1 : p1.getLast? = some m1) (hm1 : m1.user = some u1)
    (h2 : fetch u1.id limit = p2) (hlen2 : p2.length = limit)
    (hlast2 : p2.getLast? = some m2) (hm2 : m2.user = some u2)
    (h3 : fetch u2.id limit = p3) (hlen3 : p3.length = 500)
    (hall : ∀ m ∈ p1 ++ p2 ++ p3, (m.user).isSome = true)
    (hnd : (pageUserIds (p1 ++ p2 ++ p3)).Nodup) :
    (∀ fuel, 3 ≤ fuel →
      fetchCalls fetch fuel "" = .ok [("", p1), (u1.id, p2), (u2.id, p3)]) ∧
    (pageUserIds (p1 ++ p2 ++ p3)).length = 2500 ∧
    (∀ x ∈ pageUserIds (p1 ++ p2 ++ p3),
      (pageUserIds (p1 ++ p2 ++ p3)).count x = 1) ∧
    ∀ st : SysState, ∃ st', syncMembersFromServer fetch 3 st = .ok st' ∧
      ∀ x, (x ∈ mapKeys st'.cache ↔ x ∈ pageUserIds (p1 ++ p2 ++ p3)) := by
  have h500 : (500 : Nat) < limit := by decide
  have hcalls : ∀ fuel, 3 ≤ fuel →
      fetchCalls fetch fuel "" = .ok [("", p1), (u1.id, p2), (u2.id, p3)] := by
    intro fuel hfuel
    obtain ⟨k, rfl⟩ : ∃ k, fuel = k + 3 := ⟨fuel - 3, by omega⟩
    rw [show k + 3 = (k + 2) + 1 from rfl, fetchCalls_succ_full h1 hlen1 hlast1 hm1]
    rw [show k + 2 = (k + 1) + 1 from rfl, fetchCalls_succ_full h2 hlen2 hlast2 hm2]
    rw [fetchCalls_succ_short h3 (hlen3 ▸ h500)]
  have hcoll : collectRoster fetch 3 "" = .ok (p1 ++ p2 ++ p3) := by
    rw [collectRoster, hcalls 3 (Nat.le_refl 3)]
    simp [List.append_assoc]
  refine ⟨hcalls, ?_, ?_, ?_⟩
  · rw [pageUserIds_length_of_all_some _ hall]
    simp only [List.length_append, hlen1, hlen2, hlen3]
    decide
  · intro x hx
    exact List.count_eq_one_of_mem hnd hx
  · intro st
    refine ⟨_, sync_ok_of_collect hcoll st, ?_⟩
    exact fun x => sync_cacheKeys hcoll (sync_ok_of_collect hcoll st) x

set_option maxRecDepth 40000

/-- Witness for C3: the concrete 2,500-identity roster split into pages of
1,000 / 1,000 / 500 is consumed in exactly three cursor-chained fetch
calls, with no identity repeated. -/
theorem claim3_witness :
    (pageUserIds (witPage1 ++ witPage2 ++ witPage3)).Nodup ∧
    (∀ fuel, 3 ≤ fuel → fetchCalls witFetch fuel "" =
      .ok [("", witPage1), (witId 999, witPage2), (witId 1999, witPage3)]) ∧
    (pageUserIds (witPage1 ++ witPage2 ++ witPage3)).length = 2500 := by
  have hmap : ∀ l : List Nat, pageUserIds (l.map witMember) = l.map witId := by
    intro l
    induction l with
    | nil => rfl
    | cons a l ih => simp [pageUserIds, witMember] at ih ⊢; exact ih
  have hr : witPage1 ++ witPage2 ++ witPage3 =
      (List.range' 0 1000 ++ List.range' 1000 1000 ++ List.range' 2000 500).map
        witMember := by
    simp [witPage1, witPage2, witPage3]
  have hndw : (pageUserIds (witPage1 ++ witPage2 ++ witPage3)).Nodup := by
    rw [hr, hmap]
    refine List.Nodup.map witId_inj ?_
    have e1 : List.range' 0 1000 ++ List.range' 1000 1000 = List.range' 0 2000 := by
      have := List.range'_append 0 1000 1000 1
      simpa using this
    have e2 : List.range' 0 2000 ++ List.range' 2000 500 = List.range' 0 2500 := by
      have := List.range'_append 0 2000 500 1
      simpa using this
    rw [e1, e2]
    exact List.nodup_range' 0 2500
  have hallw : ∀ m ∈ witPage1 ++ witPage2 ++ witPage3, (m.user).isSome = true := by
    intro m hm
    rw [hr] at hm
    obtain ⟨i, _, rfl⟩ := List.mem_map.1 hm
    rfl
  have hlast1w : witPage1.getLast? = some (witMember 999) := by
    have h : List.range' 0 1000 = List.range' 0 999 ++ [999] := by
      rw [show (1000 = 999 + 1) from rfl, List.range'_1_concat]
    rw [witPage1, h]
    simp
  have hlast2w : witPage2.getLast? = some (witMember 1999) := by
    have h : List.range' 1000 1000 = List.range' 1000 999 ++ [1999] := by
      rw [show (1000 = 999 + 1) from rfl, List.range'_1_concat]
    rw [witPage2, h]
    simp
  have h := claim3_pagination witFetch witPage1 witPage2 witPage3
    (witMember 999) (witMember 1999)
    { id := witId 999, username := "u", discriminator := "1" }
    { id := witId 1999, username := "u", discriminator := "1" }
    rfl (by simp [witPage1, limit]) hlast1w rfl
    rfl (by simp [witPage2, limit]) hlast2w rfl
    rfl (by simp [witPage3]) hallw hndw
  exact ⟨hndw, h.1, h.2.1⟩

end UserLog
